import Mathlib

/-!
Verification of the Readly core: the adaptive RSVP pacing engine and the
folder/note tree store, shallowly embedded from
`src/src/renderer/src/App.tsx`.  JavaScript numbers are modelled as `ℚ`
(pacing delays) and `ℕ`/`ℤ` (indices, orders); JavaScript strings as
`String`; `undefined`/`null` on optional fields as nested `Option`s.
-/

namespace Readly

/-- Special folder ID for trash - notes here are "soft deleted"
(`TRASH_FOLDER_ID` in App.tsx). -/
def TRASH_FOLDER_ID : String := "__trash__"

/-- The `Note` interface of App.tsx.  `previousFolderId?: string | null` is
either absent (`none`), present-null (`some none`) or present
(`some (some f)`). -/
structure Note where
  id : String
  title : String
  content : String
  folderId : Option String
  previousFolderId : Option (Option String)
  order : Int
deriving DecidableEq, Repr

/-- The `Folder` interface of App.tsx. -/
structure Folder where
  id : String
  name : String
  parentId : Option String
  collapsed : Bool
  order : Int
deriving DecidableEq, Repr

/-- The canonical collections owned by the App component: the `notes` and
`folders` state plus the active selection (`activeNoteId`, which the source
initialises to `''` but also sets to `null`; we use `Option String`). -/
structure TreeState where
  notes : List Note
  folders : List Folder
  activeNoteId : Option String
deriving DecidableEq, Repr

/- ------------------------------------------------------------------ -/
/-! ## Tree store operations -/

/-- The `type` argument of `getNextOrder`. -/
inductive ItemKind where
  | note
  | folder
deriving DecidableEq, Repr

/-- `getNextOrder(parentId, type)` from App.tsx: one past the maximum
`order` among same-kind siblings sharing the parent, or 0 when there are
none (`Math.max(...) + 1`, modelled by a `foldl max`). -/
def getNextOrder (st : TreeState) (parentId : Option String) (kind : ItemKind) : Int :=
  match kind with
  | .note =>
    match (st.notes.filter (fun n => n.folderId == parentId)).map Note.order with
    | [] => 0
    | x :: xs => xs.foldl max x + 1
  | .folder =>
    match (st.folders.filter (fun f => f.parentId == parentId)).map Folder.order with
    | [] => 0
    | x :: xs => xs.foldl max x + 1

/-- `createNote(folderId)`: prepend a fresh note (`[newNote, ...notes]`)
and select it.  The fresh `crypto.randomUUID()` is passed as `newId`. -/
def createNote (st : TreeState) (newId : String) (folderId : Option String) : TreeState :=
  let newNote : Note :=
    { id := newId, title := "", content := "", folderId := folderId,
      previousFolderId := none, order := getNextOrder st folderId .note }
  { st with notes := newNote :: st.notes, activeNoteId := some newId }

/-- `updateNote(id, updates)` as invoked by the editor: the only call site
passes `{ content }`. -/
def updateNoteContent (st : TreeState) (id content : String) : TreeState :=
  { st with notes := st.notes.map (fun n =>
      if n.id == id then { n with content := content } else n) }

/-- `deleteNote(id)` from App.tsx: permanent delete when the note is
already in trash, otherwise soft-delete into trash recording
`previousFolderId`; in both cases the active selection moves as in the
source. -/
def deleteNote (st : TreeState) (id : String) : TreeState :=
  match st.notes.find? (fun n => n.id == id) with
  | none => st
  | some note =>
    if note.folderId == some TRASH_FOLDER_ID then
      let filtered := st.notes.filter (fun n => n.id != id)
      let newActive :=
        if st.activeNoteId == some id then
          match filtered.filter (fun n => n.folderId == some TRASH_FOLDER_ID) with
          | t :: _ => some t.id
          | [] =>
            match filtered with
            | f :: _ => some f.id
            | [] => none
        else st.activeNoteId
      { st with notes := filtered, activeNoteId := newActive }
    else
      let newNotes := st.notes.map (fun n =>
        if n.id == id
        then { n with previousFolderId := some n.folderId,
                      folderId := some TRASH_FOLDER_ID }
        else n)
      let newActive :=
        if st.activeNoteId == some id then
          match st.notes.filter (fun n =>
              n.id != id && n.folderId != some TRASH_FOLDER_ID) with
          | r :: _ => some r.id
          | [] => none
        else st.activeNoteId
      { st with notes := newNotes, activeNoteId := newActive }

/-- `createFolder(parentId)`: append a fresh folder. -/
def createFolder (st : TreeState) (newId : String) (parentId : Option String) : TreeState :=
  let newFolder : Folder :=
    { id := newId, name := "New Folder", parentId := parentId,
      collapsed := false, order := getNextOrder st parentId .folder }
  { st with folders := st.folders ++ [newFolder] }

/-- `updateFolder(id, updates)` as invoked by the rename UI: the call
sites pass `{ name }`. -/
def updateFolderName (st : TreeState) (id name : String) : TreeState :=
  { st with folders := st.folders.map (fun f =>
      if f.id == id then { f with name := name } else f) }

/-- The `newParentId` computed by `deleteFolder`:
`folders.find(f => f.id === id)?.parentId ?? null`. -/
def deleteFolderNewParent (st : TreeState) (id : String) : Option String :=
  match st.folders.find? (fun f => f.id == id) with
  | some f => f.parentId
  | none => none

/-- `deleteFolder(id)` from App.tsx: remove the folder, reparent its
direct child folders and direct child notes to its own parent. -/
def deleteFolder (st : TreeState) (id : String) : TreeState :=
  let newParentId := deleteFolderNewParent st id
  { st with
    folders := (st.folders.filter (fun f => f.id != id)).map (fun f =>
      if f.parentId == some id then { f with parentId := newParentId } else f)
    notes := st.notes.map (fun n =>
      if n.folderId == some id then { n with folderId := newParentId } else n) }

/-- `toggleFolderCollapse(id)`. -/
def toggleFolderCollapse (st : TreeState) (id : String) : TreeState :=
  { st with folders := st.folders.map (fun f =>
      if f.id == id then { f with collapsed := !f.collapsed } else f) }

/-- `emptyTrash()` from App.tsx. -/
def emptyTrash (st : TreeState) : TreeState :=
  let filtered := st.notes.filter (fun n => n.folderId != some TRASH_FOLDER_ID)
  let activeNote := st.notes.find? (fun n => some n.id == st.activeNoteId)
  let newActive :=
    if (activeNote.map Note.folderId) == some (some TRASH_FOLDER_ID) then
      match filtered with
      | f :: _ => some f.id
      | [] => none
    else st.activeNoteId
  { st with notes := filtered, activeNoteId := newActive }

/-- `restoreNote(id)` from App.tsx.  The restore target reproduces the
JavaScript truthiness test `note.previousFolderId && folders.some(...)`:
an absent, null, or empty-string `previousFolderId` is falsy and the note
returns to the root. -/
def restoreNote (st : TreeState) (id : String) : TreeState :=
  match st.notes.find? (fun n => n.id == id) with
  | none => st
  | some note =>
    let targetFolderId : Option String :=
      match note.previousFolderId with
      | some (some p) =>
        if p != "" && st.folders.any (fun f => f.id == p) then some p else none
      | _ => none
    { st with notes := st.notes.map (fun n =>
        if n.id == id
        then { n with folderId := targetFolderId, previousFolderId := none }
        else n) }

/-- `folders.find(f => f.id === current?.parentId)`: look a folder up by
an optional id (`none` finds nothing, like `f.id === null`). -/
def findByOptId (folders : List Folder) : Option String → Option Folder
  | none => none
  | some x => folders.find? (fun f => f.id == x)

/-- `isDescendant`'s loop body, with explicit fuel standing in for the
source's unbounded `while (current)` walk (on acyclic collections a fuel
of `folders.length` always suffices to reach the chain's end; proved
below). -/
def isDescendantGo (folders : List Folder) (pid : String) : Nat → Option Folder → Bool
  | _, none => false
  | 0, some _ => false
  | fuel + 1, some c =>
    if c.parentId == some pid then true
    else isDescendantGo folders pid fuel (findByOptId folders c.parentId)

/-- `isDescendant(potentialParentId, folderId)` from App.tsx: walk the
ancestor chain of `folderId`, answering whether `potentialParentId`
occurs as a parent along it. -/
def isDescendant (folders : List Folder) (potentialParentId folderId : String) : Bool :=
  isDescendantGo folders potentialParentId folders.length
    (findByOptId folders (some folderId))

/-- The per-folder update applied by `handleDropOnFolder` to the dragged
folder. -/
def moveUpd (id target : String) (nOrd : Int) (f : Folder) : Folder :=
  if f.id == id then { f with parentId := some target, order := nOrd } else f

/-- `handleDropOnFolder` with a dragged folder: guarded reparenting
(`draggedItem.id === targetFolderId || isDescendant(...)` declines). -/
def moveFolder (st : TreeState) (id targetFolderId : String) : TreeState :=
  if id == targetFolderId || isDescendant st.folders id targetFolderId then st
  else { st with folders :=
          st.folders.map (moveUpd id targetFolderId (getNextOrder st (some targetFolderId) .folder)) }

/-- `handleDropOnFolder` with a dragged note. -/
def moveNoteToFolder (st : TreeState) (id targetFolderId : String) : TreeState :=
  { st with notes := st.notes.map (fun n =>
      if n.id == id
      then { n with folderId := some targetFolderId,
                    order := getNextOrder st (some targetFolderId) .note }
      else n) }

/-- `handleDropOnRoot` with a dragged note. -/
def moveNoteToRoot (st : TreeState) (id : String) : TreeState :=
  { st with notes := st.notes.map (fun n =>
      if n.id == id
      then { n with folderId := none, order := getNextOrder st none .note }
      else n) }

/-- `handleDropOnRoot` with a dragged folder. -/
def moveFolderToRoot (st : TreeState) (id : String) : TreeState :=
  { st with folders := st.folders.map (fun f =>
      if f.id == id
      then { f with parentId := none, order := getNextOrder st none .folder }
      else f) }

/-- The trash header's `onDrop` with a dragged note: set `folderId` to the
trash sentinel (note: neither `previousFolderId` nor `order` is touched). -/
def dropNoteOnTrash (st : TreeState) (id : String) : TreeState :=
  { st with notes := st.notes.map (fun n =>
      if n.id == id then { n with folderId := some TRASH_FOLDER_ID } else n) }

/-- The Tree Store operations, one constructor per mutation reachable from
the UI (fresh UUIDs appear as explicit arguments). -/
inductive TreeOp where
  | createNote (newId : String) (folderId : Option String)
  | updateNoteContent (id content : String)
  | deleteNote (id : String)
  | createFolder (newId : String) (parentId : Option String)
  | updateFolderName (id name : String)
  | deleteFolder (id : String)
  | toggleFolderCollapse (id : String)
  | emptyTrash
  | restoreNote (id : String)
  | moveNoteToFolder (id target : String)
  | moveFolder (id target : String)
  | moveNoteToRoot (id : String)
  | moveFolderToRoot (id : String)
  | dropNoteOnTrash (id : String)
deriving DecidableEq, Repr

/-- Apply one Tree Store operation. -/
def applyOp (st : TreeState) : TreeOp → TreeState
  | .createNote newId folderId => createNote st newId folderId
  | .updateNoteContent id content => updateNoteContent st id content
  | .deleteNote id => deleteNote st id
  | .createFolder newId parentId => createFolder st newId parentId
  | .updateFolderName id name => updateFolderName st id name
  | .deleteFolder id => deleteFolder st id
  | .toggleFolderCollapse id => toggleFolderCollapse st id
  | .emptyTrash => emptyTrash st
  | .restoreNote id => restoreNote st id
  | .moveNoteToFolder id target => moveNoteToFolder st id target
  | .moveFolder id target => moveFolder st id target
  | .moveNoteToRoot id => moveNoteToRoot st id
  | .moveFolderToRoot id => moveFolderToRoot st id
  | .dropNoteOnTrash id => dropNoteOnTrash st id

/- ------------------------------------------------------------------ -/
/-! ## Pacing engine (getORP, commonWords, calculateWordDelay) -/

/-- The three-way split computed by `getORP`.  Field `pre` is the source's
`prefix` (a reserved word in Lean), `char` and `suffix` keep their names. -/
structure ORPSplit where
  pre : String
  char : String
  suffix : String
deriving DecidableEq, Repr

/-- `getORP` from App.tsx: split a word at an index determined by its
length.  `word.substring(a, b)` on JavaScript strings is `take`/`drop` on
the character list. -/
def getORP (word : String) : ORPSplit :=
  let len := word.length
  let index := if len ≤ 1 then 0
    else if len ≤ 5 then 1
    else if len ≤ 9 then 2
    else if len ≤ 13 then 3
    else 4
  { pre := (word.toList.take index).asString
    char := ((word.toList.drop index).take 1).asString
    suffix := (word.toList.drop (index + 1)).asString }

/-- The `commonWords` set of App.tsx (common words displayed faster). -/
def commonWords : List String :=
  ["the", "a", "an", "is", "are", "was", "were", "be", "been", "being",
   "have", "has", "had", "do", "does", "did", "will", "would", "could",
   "should", "may", "might", "must", "shall", "can", "need", "dare",
   "to", "of", "in", "for", "on", "with", "at", "by", "from", "as",
   "into", "through", "during", "before", "after", "above", "below",
   "between", "under", "again", "further", "then", "once", "here",
   "there", "when", "where", "why", "how", "all", "each", "every",
   "both", "few", "more", "most", "other", "some", "such", "no", "nor",
   "not", "only", "own", "same", "so", "than", "too", "very", "just",
   "and", "but", "if", "or", "because", "until", "while", "although",
   "i", "you", "he", "she", "it", "we", "they", "what", "which", "who",
   "this", "that", "these", "those", "am", "its", "my", "your", "his", "her"]

/-- The `AdaptiveOptions` interface; `baseWpm` (a JavaScript number) is
modelled as a rational. -/
structure AdaptiveOptions where
  baseWpm : ℚ
  adaptWordLength : Bool
  adaptPunctuation : Bool
  adaptComplexity : Bool

/-- A JavaScript `\w` character: `[A-Za-z0-9_]`. -/
def isWordChar (c : Char) : Bool := c.isAlpha || c.isDigit || c == '_'

/-- `word.replace(/[^\w]/g, '')`: keep only word characters. -/
def cleanOf (w : String) : String := (w.toList.filter isWordChar).asString

/-- `.toLowerCase()` applied character by character (the cleaned word is
ASCII, where JavaScript and ASCII lower-casing agree). -/
def lowerOf (w : String) : String := (w.toList.map Char.toLower).asString

/-- The word-length addition of `calculateWordDelay`:
`Math.max(0, cleanWord.length - 5) * 12`. -/
def lengthPenalty (w : String) : ℚ :=
  ((max 0 (((cleanOf w).length : Int) - 5)) * 12 : Int)

/-- The punctuation addition of `calculateWordDelay`: the regexes
`/[.!?]$/`, `/[,;:]$/`, `/[-—]$/` test only the word's last character. -/
def punctuationBonus (w : String) : ℚ :=
  match w.toList.getLast? with
  | some c =>
    if c == '.' || c == '!' || c == '?' then 150
    else if c == ',' || c == ';' || c == ':' then 80
    else if c == '-' || c == '—' then 50
    else 0
  | none => 0

/-- `calculateWordDelay` from App.tsx: sequential updates of `delay`
starting from `60000 / baseWpm`; the complexity branch multiplies the
running total by 1.2 when the cleaned lower-cased word is uncommon. -/
def calculateWordDelay (word : String) (options : AdaptiveOptions) : ℚ :=
  let baseMs : ℚ := 60000 / options.baseWpm
  let delay := baseMs
  let delay := if options.adaptWordLength then delay + lengthPenalty word else delay
  let delay := if options.adaptPunctuation then delay + punctuationBonus word else delay
  let delay :=
    if options.adaptComplexity && !(commonWords.contains (lowerOf (cleanOf word)))
    then delay * (12 / 10) else delay
  delay

/-- The training-mode effective speed computed in the playback effect:
`increments = Math.floor(currentIdx / 50)`,
`effectiveWpm = startWpm + increments * trainingIncrement`, capped by
`Math.min(effectiveWpm, 800)`. -/
def effectiveWpm (tokenIndex startWpm incrementPerStep : Nat) : Nat :=
  let increments := tokenIndex / 50
  let e := startWpm + increments * incrementPerStep
  min e 800

/- ------------------------------------------------------------------ -/
/-! ## Reader session state and openReader -/

/-- The reader-related component state: `readerOpen`, `isPlaying`, `wpm`,
`words`, `currentIdx` and the `startWpmRef` recorded on open. -/
structure ReaderState where
  readerOpen : Bool
  isPlaying : Bool
  wpm : Nat
  words : List String
  currentIdx : Nat
  startWpm : Nat
deriving DecidableEq, Repr

/-- JavaScript `String.prototype.trim`: remove leading and trailing
whitespace (structural model). -/
def jsTrim (s : String) : String :=
  ((s.toList.dropWhile Char.isWhitespace).reverse.dropWhile Char.isWhitespace).reverse.asString

/-- Helper for `tokenize`: collect the maximal non-whitespace runs,
accumulating the current run in reverse. -/
def splitWords : List Char → List Char → List String
  | [], acc => if acc.isEmpty then [] else [acc.reverse.asString]
  | c :: cs, acc =>
    if c.isWhitespace then
      if acc.isEmpty then splitWords cs []
      else acc.reverse.asString :: splitWords cs []
    else splitWords cs (c :: acc)

/-- `plainText.trim().split(/\s+/)`: the maximal non-whitespace runs of
the input, in order.  This equals the JavaScript expression whenever the
input contains some non-whitespace character; `openReader`'s guard
excludes the remaining (whitespace-only) case. -/
def tokenize (s : String) : List String := splitWords s.toList []

/-- `openReader` from App.tsx.  `content` is the active note's raw content
and `plainText` the result of the (out-of-scope) `stripHtml` collaborator;
both falsy-empty guards (`!activeNote?.content.trim()` and
`!plainText.trim()`) decline by returning the state unchanged. -/
def openReader (content plainText : String) (st : ReaderState) : ReaderState :=
  if jsTrim content == "" then st
  else if jsTrim plainText == "" then st
  else { st with
    words := tokenize plainText
    currentIdx := 0
    readerOpen := true
    isPlaying := false
    startWpm := st.wpm }

/- ------------------------------------------------------------------ -/
/-! ## Pacing theorems -/

/-- Closed form of `calculateWordDelay`: the sequential updates amount to
(base + length addition + punctuation addition) times the complexity
multiplier. -/
lemma calculateWordDelay_eq (word : String) (o : AdaptiveOptions) :
    calculateWordDelay word o =
      (60000 / o.baseWpm
        + (if o.adaptWordLength then lengthPenalty word else 0)
        + (if o.adaptPunctuation then punctuationBonus word else 0))
      * (if o.adaptComplexity && !(commonWords.contains (lowerOf (cleanOf word)))
         then 12 / 10 else 1) := by
  rcases o with ⟨b, wl, pu, cx⟩
  simp only [calculateWordDelay]
  cases hx : (cx && !(commonWords.contains (lowerOf (cleanOf word)))) <;>
    cases wl <;> cases pu <;> simp [hx]

/-- C3: `calculateWordDelay` starts from `60000 / baseWpm`, adds the
word-length penalty when `adaptWordLength`, adds the terminal-punctuation
bonus when `adaptPunctuation`, and multiplies the running total (not the
base alone) by 1.2 when `adaptComplexity` holds and the cleaned lower-cased
token is uncommon; `delay "the" 300` with all toggles off is `200` and
`delay "extraordinary." 300` with length and punctuation on is `446`. -/
theorem calculateWordDelay_spec :
    (∀ (word : String) (o : AdaptiveOptions),
        calculateWordDelay word o =
          (60000 / o.baseWpm
            + (if o.adaptWordLength then lengthPenalty word else 0)
            + (if o.adaptPunctuation then punctuationBonus word else 0))
          * (if o.adaptComplexity && !(commonWords.contains (lowerOf (cleanOf word)))
             then 12 / 10 else 1))
    ∧ calculateWordDelay "the" ⟨300, false, false, false⟩ = 200
    ∧ calculateWordDelay "extraordinary." ⟨300, true, true, false⟩ = 446 := by
  refine ⟨calculateWordDelay_eq, ?_, ?_⟩
  · rw [calculateWordDelay_eq]
    norm_num
  · rw [calculateWordDelay_eq]
    rw [show lengthPenalty "extraordinary." = 96 from rfl,
        show punctuationBonus "extraordinary." = 150 from rfl]
    norm_num

/-- C4: the training ramp equals `min (startWpm + (tokenIndex / 50) * inc) 800`,
takes the values 320 and 330 at indices 149 and 150 from 300 WPM with
increment 10, and never exceeds the 800 cap. -/
theorem effectiveWpm_spec :
    effectiveWpm 149 300 10 = 320
    ∧ effectiveWpm 150 300 10 = 330
    ∧ (∀ i s inc : Nat, effectiveWpm i s inc = min (s + (i / 50) * inc) 800)
    ∧ (∀ s i : Nat, s ≤ 800 → effectiveWpm i s 10 ≤ 800) :=
  ⟨by decide, by decide, fun _ _ _ => rfl, fun s i _ => Nat.min_le_right _ _⟩

/-- Witness for C4 at a concrete input. -/
theorem effectiveWpm_spec_witness : effectiveWpm 7 300 10 ≤ 800 :=
  effectiveWpm_spec.2.2.2 300 7 (by decide)

/-- C7 counterexample: with `adaptWordLength` on (punctuation and
complexity off, base 300), the 7-character token `"a......"` gets a
strictly smaller delay than the 6-character token `"aaaaaa"`, so `delay`
is not non-decreasing in raw token length. -/
theorem calculateWordDelay_longer_token_smaller_delay :
    ("aaaaaa".length < "a......".length)
    ∧ calculateWordDelay "a......" ⟨300, true, false, false⟩
        < calculateWordDelay "aaaaaa" ⟨300, true, false, false⟩ := by
  refine ⟨by decide, ?_⟩
  rw [calculateWordDelay_eq, calculateWordDelay_eq]
  rw [show lengthPenalty "a......" = 0 from rfl,
      show lengthPenalty "aaaaaa" = 12 from rfl]
  norm_num

/-- C7 (amended): with `adaptWordLength` enabled and toggles and base
fixed, `calculateWordDelay` is non-decreasing in the number of word
characters of the token, provided the two tokens get the same terminal
punctuation bonus and the same commonness classification. -/
theorem calculateWordDelay_mono (w1 w2 : String) (o : AdaptiveOptions)
    (hwl : o.adaptWordLength = true)
    (hlen : (cleanOf w1).length ≤ (cleanOf w2).length)
    (hp : punctuationBonus w1 = punctuationBonus w2)
    (hc : commonWords.contains (lowerOf (cleanOf w1))
          = commonWords.contains (lowerOf (cleanOf w2))) :
    calculateWordDelay w1 o ≤ calculateWordDelay w2 o := by
  rw [calculateWordDelay_eq, calculateWordDelay_eq, hp, hc]
  apply mul_le_mul_of_nonneg_right
  · have hlp : lengthPenalty w1 ≤ lengthPenalty w2 := by
      unfold lengthPenalty
      have h5 : ((cleanOf w1).length : Int) - 5 ≤ ((cleanOf w2).length : Int) - 5 := by
        have : ((cleanOf w1).length : Int) ≤ ((cleanOf w2).length : Int) := by
          exact_mod_cast hlen
        omega
      have : (max 0 (((cleanOf w1).length : Int) - 5)) * 12
          ≤ (max 0 (((cleanOf w2).length : Int) - 5)) * 12 :=
        mul_le_mul_of_nonneg_right (max_le_max le_rfl h5) (by norm_num)
      exact_mod_cast this
    rw [hwl]
    simp only [if_true]
    linarith
  · split <;> norm_num

/-- Witness for C7's amended theorem at concrete tokens. -/
theorem calculateWordDelay_mono_witness :
    calculateWordDelay "ab" ⟨300, true, false, false⟩
      ≤ calculateWordDelay "abc" ⟨300, true, false, false⟩ :=
  calculateWordDelay_mono "ab" "abc" ⟨300, true, false, false⟩
    rfl (by decide) rfl rfl

/- ------------------------------------------------------------------ -/
/-! ## ORP split theorem -/

/-- The ORP index cascade as a function of the token length (as the spec
states it: length ≤ 1 → 0, ≤ 5 → 1, ≤ 9 → 2, ≤ 13 → 3, else 4). -/
def orpIndex (len : Nat) : Nat :=
  if len ≤ 1 then 0 else if len ≤ 5 then 1 else if len ≤ 9 then 2
  else if len ≤ 13 then 3 else 4

lemma asString_append (a b : List Char) : a.asString ++ b.asString = (a ++ b).asString := rfl

lemma asString_toList (s : String) : s.toList.asString = s := rfl

lemma length_asString (l : List Char) : l.asString.length = l.length := rfl

/-- Splitting a list at `i` into the part before `i`, the element at `i`
(if any) and the part after `i` reconstructs the list. -/
lemma take_one_drop_split (l : List Char) (i : Nat) :
    l.take i ++ ((l.drop i).take 1 ++ l.drop (i + 1)) = l := by
  have h : l.drop (i + 1) = (l.drop i).drop 1 := by
    rw [List.drop_drop, Nat.add_comm]
  rw [h, List.take_append_drop, List.take_append_drop]

/-- C10: `getORP` splits every token at the index determined by its length
alone; the concatenation `pre ++ char ++ suffix` restores the token, the
focus character has length at most 1, and the split index is the cascade
value (clamped by the token length). -/
theorem getORP_split (word : String) :
    (getORP word).pre ++ (getORP word).char ++ (getORP word).suffix = word
    ∧ (getORP word).char.length ≤ 1
    ∧ (getORP word).pre.length = min (orpIndex word.length) word.length := by
  refine ⟨?_, ?_, ?_⟩
  · show (word.toList.take (orpIndex word.length)).asString
        ++ ((word.toList.drop (orpIndex word.length)).take 1).asString
        ++ (word.toList.drop (orpIndex word.length + 1)).asString = word
    rw [asString_append, asString_append]
    conv_rhs => rw [← asString_toList word]
    congr 1
    rw [List.append_assoc]
    exact take_one_drop_split _ _
  · show ((word.toList.drop (orpIndex word.length)).take 1).asString.length ≤ 1
    rw [length_asString, List.length_take]
    exact min_le_left _ _
  · show ((word.toList.take (orpIndex word.length)).asString).length
        = min (orpIndex word.length) word.length
    rw [length_asString, List.length_take]
    rfl

/- ------------------------------------------------------------------ -/
/-! ## Reader-open theorem -/

/-- C9: opening the reader on a note whose extracted plain text is empty
or whitespace-only is a silent no-op (the whole reader state is
unchanged); for non-empty text the word list becomes the
whitespace-split tokens, the position resets to 0, the reader opens
paused, and the starting speed is recorded. -/
theorem openReader_spec (content plainText : String) (st : ReaderState) :
    (jsTrim plainText = "" → openReader content plainText st = st)
    ∧ (jsTrim content ≠ "" → jsTrim plainText ≠ "" →
        openReader content plainText st
          = { st with words := tokenize plainText, currentIdx := 0,
                      readerOpen := true, isPlaying := false,
                      startWpm := st.wpm }) := by
  constructor
  · intro h
    simp [openReader, h]
  · intro h1 h2
    have g1 : ¬ ((jsTrim content == "") = true) := by simpa using h1
    have g2 : ¬ ((jsTrim plainText == "") = true) := by simpa using h2
    simp [openReader, g1, g2]

/-- Witness for C9 at a concrete note. -/
theorem openReader_spec_witness :
    openReader "hi" "hi" ⟨false, false, 300, [], 0, 300⟩
      = ⟨true, false, 300, ["hi"], 0, 300⟩ := by
  rw [(openReader_spec "hi" "hi" ⟨false, false, 300, [], 0, 300⟩).2
      (by decide) (by decide)]
  decide

/- ------------------------------------------------------------------ -/
/-! ## Tree store lemmas -/

/-- `find?` commutes with mapping a function that does not change the
tested predicate. -/
lemma find?_map_of_pres {α : Type} (u : α → α) (p : α → Bool)
    (hp : ∀ a, p (u a) = p a) : ∀ (l : List α), (l.map u).find? p = (l.find? p).map u
  | [] => rfl
  | a :: l => by
    by_cases h : p a = true
    · have h1 : p (u a) = true := by rw [hp]; exact h
      rw [List.map_cons, List.find?_cons_of_pos _ h1, List.find?_cons_of_pos _ h]
      rfl
    · have h1 : ¬ p (u a) = true := by rw [hp]; exact h
      rw [List.map_cons, List.find?_cons_of_neg _ h1, List.find?_cons_of_neg _ h]
      exact find?_map_of_pres u p hp l

/-- A conditional note update guarded by the note's id keeps the id
predicate intact. -/
lemma note_idUpd_pres (id : String) (g : Note → Note) (hg : ∀ m, (g m).id = m.id) :
    ∀ m : Note, ((if m.id == id then g m else m).id == id) = (m.id == id) := by
  intro m
  by_cases h : (m.id == id) = true <;> simp [h, hg]

/-- After filtering out id `F` no mapped folder matches id `F`, for any
id-preserving map. -/
lemma any_id_of_filter_ne (l : List Folder) (F : String) (u : Folder → Folder)
    (hu : ∀ f, (u f).id = f.id) :
    ((l.filter (fun f => f.id != F)).map u).any (fun f => f.id == F) = false := by
  rw [List.any_eq_false]
  intro x hx
  obtain ⟨f, hf, rfl⟩ := List.mem_map.mp hx
  have hne : f.id ≠ F := by simpa using (List.mem_filter.mp hf).2
  simp [hu, hne]

/-- Characterization of the soft-delete branch of `deleteNote`. -/
lemma deleteNote_soft (st : TreeState) (id : String) (n : Note)
    (hfind : st.notes.find? (fun m => m.id == id) = some n)
    (hcond : (n.folderId == some TRASH_FOLDER_ID) = false) :
    (deleteNote st id).notes = st.notes.map (fun m =>
        if m.id == id
        then { m with previousFolderId := some m.folderId,
                      folderId := some TRASH_FOLDER_ID }
        else m)
    ∧ (deleteNote st id).folders = st.folders := by
  unfold deleteNote
  rw [hfind]
  dsimp only
  rw [if_neg (by simp [hcond])]
  exact ⟨rfl, rfl⟩

/-- Characterization of `restoreNote` when the found note has a
present, non-null `previousFolderId` and the truthiness test evaluates
to `target`. -/
lemma restoreNote_found (st : TreeState) (id : String) (n : Note) (p : String)
    (target : Option String)
    (hfind : st.notes.find? (fun m => m.id == id) = some n)
    (hprev : n.previousFolderId = some (some p))
    (htarget : (if p != "" && st.folders.any (fun f => f.id == p)
                then some p else none) = target) :
    (restoreNote st id).notes = st.notes.map (fun m =>
        if m.id == id
        then { m with folderId := target, previousFolderId := none }
        else m) := by
  unfold restoreNote
  rw [hfind]
  dsimp only
  rw [hprev]
  dsimp only
  rw [htarget]

/-- C2 (amended): soft-deleting a note in folder `F` (not trash) records
`previousFolderId = F` and moves it to trash; restoring returns it to `F`
when a folder with that (non-empty) id still exists, and to the root when
`F` was deleted in the interim by `deleteFolder F`.  (The non-emptiness
proviso reflects the JavaScript truthiness test in `restoreNote`; see the
counterexample below.) -/
theorem deleteNote_restore_roundtrip (st : TreeState) (id F : String) (n : Note)
    (hfind : st.notes.find? (fun m => m.id == id) = some n)
    (hF : n.folderId = some F) (hFtrash : F ≠ TRASH_FOLDER_ID) :
    (∃ n1, (deleteNote st id).notes.find? (fun m => m.id == id) = some n1
        ∧ n1.folderId = some TRASH_FOLDER_ID
        ∧ n1.previousFolderId = some (some F))
    ∧ (F ≠ "" → st.folders.any (fun f => f.id == F) = true →
        ∃ n2, (restoreNote (deleteNote st id) id).notes.find?
            (fun m => m.id == id) = some n2
          ∧ n2.folderId = some F ∧ n2.previousFolderId = none)
    ∧ (∃ n3, (restoreNote (deleteFolder (deleteNote st id) F) id).notes.find?
          (fun m => m.id == id) = some n3
        ∧ n3.folderId = none ∧ n3.previousFolderId = none) := by
  have hnid : (n.id == id) = true := by
    have h := List.find?_some hfind
    simpa using h
  have hcond : (n.folderId == some TRASH_FOLDER_ID) = false := by
    rw [hF]
    simpa using hFtrash
  obtain ⟨h1n, h1f⟩ := deleteNote_soft st id n hfind hcond
  have hp1 : ∀ m : Note, ((if m.id == id
      then { m with previousFolderId := some m.folderId,
                    folderId := some TRASH_FOLDER_ID }
      else m).id == id) = (m.id == id) :=
    note_idUpd_pres id _ (fun _ => rfl)
  have hnid1 : (({ n with previousFolderId := some (some F),
                          folderId := some TRASH_FOLDER_ID } : Note).id == id) = true := hnid
  have hfind1 : (deleteNote st id).notes.find? (fun m => m.id == id)
      = some { n with previousFolderId := some (some F),
                      folderId := some TRASH_FOLDER_ID } := by
    rw [h1n, find?_map_of_pres _ _ hp1, hfind]
    dsimp only [Option.map]
    rw [if_pos hnid, hF]
  refine ⟨⟨_, hfind1, rfl, rfl⟩, ?_, ?_⟩
  · intro hFempty hFany
    have htargetF :
        (if F != "" && (deleteNote st id).folders.any (fun f => f.id == F)
         then some F else none) = some F := by
      have hne : (F != "") = true := by simpa using hFempty
      rw [h1f, hne, hFany]
      simp
    have h2n := restoreNote_found (deleteNote st id) id _ F (some F) hfind1 rfl htargetF
    have hp2 : ∀ m : Note, ((if m.id == id
        then { m with folderId := some F, previousFolderId := none }
        else m).id == id) = (m.id == id) :=
      note_idUpd_pres id _ (fun _ => rfl)
    refine ⟨{ n with folderId := some F, previousFolderId := none }, ?_, rfl, rfl⟩
    rw [h2n, find?_map_of_pres _ _ hp2, hfind1]
    dsimp only [Option.map]
    rw [if_pos hnid1]
  · have hDn : (deleteFolder (deleteNote st id) F).notes
        = (deleteNote st id).notes.map (fun m =>
            if m.folderId == some F
            then { m with folderId := deleteFolderNewParent (deleteNote st id) F }
            else m) := rfl
    have hp3 : ∀ m : Note, ((if m.folderId == some F
        then { m with folderId := deleteFolderNewParent (deleteNote st id) F }
        else m).id == id) = (m.id == id) := by
      intro m
      by_cases h : (m.folderId == some F) = true <;> simp [h]
    have htrashF : ((some TRASH_FOLDER_ID : Option String) == some F) = false := by
      simpa using fun h => hFtrash h.symm
    have hfindD : (deleteFolder (deleteNote st id) F).notes.find?
        (fun m => m.id == id)
        = some { n with previousFolderId := some (some F),
                        folderId := some TRASH_FOLDER_ID } := by
      rw [hDn, find?_map_of_pres _ _ hp3, hfind1]
      dsimp only [Option.map]
      have hcondD : (({ n with previousFolderId := some (some F),
                               folderId := some TRASH_FOLDER_ID } : Note).folderId == some F)
          = ((some TRASH_FOLDER_ID : Option String) == some F) := rfl
      rw [if_neg (by rw [hcondD, htrashF]; exact Bool.false_ne_true)]
    have hanyD : (deleteFolder (deleteNote st id) F).folders.any
        (fun f => f.id == F) = false := by
      have hDf : (deleteFolder (deleteNote st id) F).folders
          = ((deleteNote st id).folders.filter (fun f => f.id != F)).map (fun f =>
              if f.parentId == some F
              then { f with parentId := deleteFolderNewParent (deleteNote st id) F }
              else f) := rfl
      rw [hDf]
      refine any_id_of_filter_ne _ _ _ ?_
      intro f
      by_cases h : (f.parentId == some F) = true <;> simp [h]
    have htargetD :
        (if F != "" && (deleteFolder (deleteNote st id) F).folders.any
            (fun f => f.id == F)
         then some F else none) = none := by
      rw [hanyD]
      simp
    have h3n := restoreNote_found (deleteFolder (deleteNote st id) F) id _ F none
      hfindD rfl htargetD
    have hp4 : ∀ m : Note, ((if m.id == id
        then { m with folderId := none, previousFolderId := none }
        else m).id == id) = (m.id == id) :=
      note_idUpd_pres id _ (fun _ => rfl)
    refine ⟨{ n with folderId := none, previousFolderId := none }, ?_, rfl, rfl⟩
    rw [h3n, find?_map_of_pres _ _ hp4, hfindD]
    dsimp only [Option.map]
    rw [if_pos hnid1]

/-- The state for C2's truthiness counterexample: a folder whose id is the
empty string, containing one note. -/
def emptyIdState : TreeState :=
  { notes := [{ id := "n", title := "", content := "", folderId := some "",
                previousFolderId := none, order := 0 }],
    folders := [{ id := "", name := "e", parentId := none,
                  collapsed := false, order := 0 }],
    activeNoteId := none }

/-- C2 counterexample: with `F` the empty-string folder id, `deleteNote`
records `previousFolderId = some ""` and the folder still exists, yet
`restoreNote` sends the note to the root (`folderId = none`) instead of
back to `F` — the JavaScript truthiness test treats `""` as absent. -/
theorem restoreNote_emptyId_goes_to_root :
    ((deleteNote emptyIdState "n").notes.find? (fun m => m.id == "n")).map
        Note.previousFolderId = some (some (some ""))
    ∧ (deleteNote emptyIdState "n").folders.any (fun f => f.id == "") = true
    ∧ ((restoreNote (deleteNote emptyIdState "n") "n").notes.find?
        (fun m => m.id == "n")).map Note.folderId = some none := by
  decide

/-- A `foldl max` is at least its initial value. -/
lemma init_le_foldl_max (xs : List Int) : ∀ x : Int, x ≤ xs.foldl max x := by
  induction xs with
  | nil => intro x; exact le_rfl
  | cons a xs ih =>
    intro x
    rw [List.foldl_cons]
    exact le_trans (le_max_left x a) (ih (max x a))

/-- A `foldl max` dominates every list member. -/
lemma mem_le_foldl_max (xs : List Int) : ∀ (x y : Int), y ∈ xs → y ≤ xs.foldl max x := by
  induction xs with
  | nil => intro x y h; cases h
  | cons a xs ih =>
    intro x y h
    rw [List.foldl_cons]
    rcases List.mem_cons.mp h with rfl | h
    · exact le_trans (le_max_right x y) (init_le_foldl_max xs (max x y))
    · exact ih (max x a) y h

/-- A `foldl max` is the initial value or some list member. -/
lemma foldl_max_choice (xs : List Int) : ∀ x : Int, xs.foldl max x = x ∨ xs.foldl max x ∈ xs := by
  induction xs with
  | nil => intro x; exact Or.inl rfl
  | cons a xs ih =>
    intro x
    rw [List.foldl_cons]
    rcases ih (max x a) with h | h
    · rcases max_choice x a with hx | hx
      · exact Or.inl (h.trans hx)
      · exact Or.inr (List.mem_cons.mpr (Or.inl (h.trans hx)))
    · exact Or.inr (List.mem_cons.mpr (Or.inr h))

/-- Every same-parent note sorts strictly below `getNextOrder`. -/
lemma note_order_lt_getNextOrder (st : TreeState) (pid : Option String) :
    ∀ n ∈ st.notes, n.folderId = pid → n.order < getNextOrder st pid .note := by
  intro n hn hp
  have hmemo : n.order ∈ (st.notes.filter (fun m => m.folderId == pid)).map Note.order :=
    List.mem_map.mpr ⟨n, List.mem_filter.mpr ⟨hn, by simpa using hp⟩, rfl⟩
  cases hl : (st.notes.filter (fun m => m.folderId == pid)).map Note.order with
  | nil => rw [hl] at hmemo; cases hmemo
  | cons x xs =>
    rw [hl] at hmemo
    have hle : n.order ≤ xs.foldl max x := by
      rcases List.mem_cons.mp hmemo with h | h
      · rw [h]; exact init_le_foldl_max xs x
      · exact mem_le_foldl_max xs x n.order h
    unfold getNextOrder
    rw [hl]
    dsimp only
    omega

/-- Every same-parent folder sorts strictly below `getNextOrder`. -/
lemma folder_order_lt_getNextOrder (st : TreeState) (pid : Option String) :
    ∀ f ∈ st.folders, f.parentId = pid → f.order < getNextOrder st pid .folder := by
  intro f hf hp
  have hmemo : f.order ∈ (st.folders.filter (fun g => g.parentId == pid)).map Folder.order :=
    List.mem_map.mpr ⟨f, List.mem_filter.mpr ⟨hf, by simpa using hp⟩, rfl⟩
  cases hl : (st.folders.filter (fun g => g.parentId == pid)).map Folder.order with
  | nil => rw [hl] at hmemo; cases hmemo
  | cons x xs =>
    rw [hl] at hmemo
    have hle : f.order ≤ xs.foldl max x := by
      rcases List.mem_cons.mp hmemo with h | h
      · rw [h]; exact init_le_foldl_max xs x
      · exact mem_le_foldl_max xs x f.order h
    unfold getNextOrder
    rw [hl]
    dsimp only
    omega

/-- Folder `A` (a root folder) for C6's concrete example. -/
def folderA : Folder :=
  { id := "A", name := "A", parentId := none, collapsed := false, order := 0 }

/-- Folder `B`, a child of `A`. -/
def folderB : Folder :=
  { id := "B", name := "B", parentId := some "A", collapsed := false, order := 0 }

/-- Note `N`, stored in folder `B`. -/
def noteN : Note :=
  { id := "N", title := "", content := "", folderId := some "B",
    previousFolderId := none, order := 0 }

/-- The tree root → A → B with note N under B. -/
def abState : TreeState :=
  { notes := [noteN], folders := [folderA, folderB], activeNoteId := none }

/-- C6: `deleteFolder id` removes exactly the folder(s) with that id,
reparents direct child folders and direct child notes to the deleted
folder's own parent, changes nothing else and adds nothing; in the
concrete root → A → B example with note N under B, deleting A makes B a
root folder while N stays in B. -/
theorem deleteFolder_spec (st : TreeState) (id : String) :
    (∀ g ∈ (deleteFolder st id).folders, g.id ≠ id)
    ∧ (∀ f ∈ st.folders, f.id ≠ id → f.parentId = some id →
        { f with parentId := deleteFolderNewParent st id } ∈ (deleteFolder st id).folders)
    ∧ (∀ f ∈ st.folders, f.id ≠ id → f.parentId ≠ some id →
        f ∈ (deleteFolder st id).folders)
    ∧ (∀ g ∈ (deleteFolder st id).folders, ∃ f, f ∈ st.folders ∧ f.id ≠ id ∧
        g = (if f.parentId = some id
             then { f with parentId := deleteFolderNewParent st id } else f))
    ∧ (∀ n ∈ st.notes, n.folderId = some id →
        { n with folderId := deleteFolderNewParent st id } ∈ (deleteFolder st id).notes)
    ∧ (∀ n ∈ st.notes, n.folderId ≠ some id → n ∈ (deleteFolder st id).notes)
    ∧ (∀ m ∈ (deleteFolder st id).notes, ∃ n, n ∈ st.notes ∧
        m = (if n.folderId = some id
             then { n with folderId := deleteFolderNewParent st id } else n))
    ∧ (deleteFolder abState "A").folders = [{ folderB with parentId := none }]
    ∧ (deleteFolder abState "A").notes = [noteN] := by
  have hfolders : (deleteFolder st id).folders
      = (st.folders.filter (fun f => f.id != id)).map (fun f =>
          if f.parentId == some id
          then { f with parentId := deleteFolderNewParent st id } else f) := rfl
  have hnotes : (deleteFolder st id).notes
      = st.notes.map (fun n =>
          if n.folderId == some id
          then { n with folderId := deleteFolderNewParent st id } else n) := rfl
  refine ⟨?_, ?_, ?_, ?_, ?_, ?_, ?_, by decide, by decide⟩
  · intro g hg
    rw [hfolders] at hg
    obtain ⟨f, hf, rfl⟩ := List.mem_map.mp hg
    have hne : f.id ≠ id := by simpa using (List.mem_filter.mp hf).2
    by_cases h : (f.parentId == some id) = true <;> simp [h, hne]
  · intro f hf hne hpar
    rw [hfolders]
    refine List.mem_map.mpr ⟨f, List.mem_filter.mpr ⟨hf, by simpa using hne⟩, ?_⟩
    rw [if_pos (by simpa using hpar)]
  · intro f hf hne hpar
    rw [hfolders]
    refine List.mem_map.mpr ⟨f, List.mem_filter.mpr ⟨hf, by simpa using hne⟩, ?_⟩
    rw [if_neg (by simpa using hpar)]
  · intro g hg
    rw [hfolders] at hg
    obtain ⟨f, hf, rfl⟩ := List.mem_map.mp hg
    refine ⟨f, (List.mem_filter.mp hf).1, by simpa using (List.mem_filter.mp hf).2, ?_⟩
    by_cases h : f.parentId = some id <;> simp [h]
  · intro n hn hfid
    rw [hnotes]
    refine List.mem_map.mpr ⟨n, hn, ?_⟩
    rw [if_pos (by simpa using hfid)]
  · intro n hn hfid
    rw [hnotes]
    refine List.mem_map.mpr ⟨n, hn, ?_⟩
    rw [if_neg (by simpa using hfid)]
  · intro m hm
    rw [hnotes] at hm
    obtain ⟨n, hn, rfl⟩ := List.mem_map.mp hm
    refine ⟨n, hn, ?_⟩
    by_cases h : n.folderId = some id <;> simp [h]

/-- Witness for C6: in the concrete tree, B reparented to the root is
among the folders remaining after `deleteFolder A`. -/
theorem deleteFolder_spec_witness :
    { folderB with parentId := deleteFolderNewParent abState "A" }
      ∈ (deleteFolder abState "A").folders :=
  (deleteFolder_spec abState "A").2.1 folderB (by decide) (by decide) rfl

/-- C8: `getNextOrder` is 0 without same-kind siblings and one past the
maximum sibling order otherwise, and every creation and reparenting move
(`createNote`, `createFolder`, note/folder drops onto a folder or the
root) gives the placed item this order, so it sorts strictly after every
other current sibling. -/
theorem getNextOrder_spec (st : TreeState) (pid : Option String) (newId nid target : String) :
    (st.notes.filter (fun m => m.folderId == pid) = [] →
        getNextOrder st pid .note = 0)
    ∧ (st.notes.filter (fun m => m.folderId == pid) ≠ [] →
        ∃ n ∈ st.notes, n.folderId = pid ∧ getNextOrder st pid .note = n.order + 1)
    ∧ (∀ n ∈ st.notes, n.folderId = pid → n.order < getNextOrder st pid .note)
    ∧ (st.folders.filter (fun f => f.parentId == pid) = [] →
        getNextOrder st pid .folder = 0)
    ∧ (st.folders.filter (fun f => f.parentId == pid) ≠ [] →
        ∃ f ∈ st.folders, f.parentId = pid ∧ getNextOrder st pid .folder = f.order + 1)
    ∧ (∀ f ∈ st.folders, f.parentId = pid → f.order < getNextOrder st pid .folder)
    ∧ (∃ nn : Note, (createNote st newId pid).notes = nn :: st.notes
        ∧ nn.id = newId ∧ nn.folderId = pid
        ∧ nn.order = getNextOrder st pid .note
        ∧ ∀ m ∈ st.notes, m.folderId = pid → m.order < nn.order)
    ∧ (∃ nf : Folder, (createFolder st newId pid).folders = st.folders ++ [nf]
        ∧ nf.id = newId ∧ nf.parentId = pid
        ∧ nf.order = getNextOrder st pid .folder
        ∧ ∀ g ∈ st.folders, g.parentId = pid → g.order < nf.order)
    ∧ (∀ m ∈ (moveNoteToFolder st nid target).notes,
        (m.id = nid → ∃ m0 ∈ st.notes, m0.id = nid ∧
          m = { m0 with folderId := some target,
                        order := getNextOrder st (some target) .note })
        ∧ (m.id ≠ nid → m ∈ st.notes ∧ (m.folderId = some target →
            m.order < getNextOrder st (some target) .note)))
    ∧ ((nid == target || isDescendant st.folders nid target) = false →
        ∀ g ∈ (moveFolder st nid target).folders,
        (g.id = nid → ∃ g0 ∈ st.folders, g0.id = nid ∧
          g = { g0 with parentId := some target,
                        order := getNextOrder st (some target) .folder })
        ∧ (g.id ≠ nid → g ∈ st.folders ∧ (g.parentId = some target →
            g.order < getNextOrder st (some target) .folder)))
    ∧ (∀ m ∈ (moveNoteToRoot st nid).notes,
        (m.id = nid → ∃ m0 ∈ st.notes, m0.id = nid ∧
          m = { m0 with folderId := none, order := getNextOrder st none .note })
        ∧ (m.id ≠ nid → m ∈ st.notes ∧ (m.folderId = none →
            m.order < getNextOrder st none .note)))
    ∧ (∀ g ∈ (moveFolderToRoot st nid).folders,
        (g.id = nid → ∃ g0 ∈ st.folders, g0.id = nid ∧
          g = { g0 with parentId := none, order := getNextOrder st none .folder })
        ∧ (g.id ≠ nid → g ∈ st.folders ∧ (g.parentId = none →
            g.order < getNextOrder st none .folder))) := by
  refine ⟨?_, ?_, note_order_lt_getNextOrder st pid, ?_, ?_,
    folder_order_lt_getNextOrder st pid, ?_, ?_, ?_, ?_, ?_, ?_⟩
  · intro h
    unfold getNextOrder
    rw [h]
    rfl
  · intro h
    cases hl : (st.notes.filter (fun m => m.folderId == pid)).map Note.order with
    | nil =>
      exact absurd (List.map_eq_nil_iff.mp hl) h
    | cons x xs =>
      have hmem : xs.foldl max x ∈ x :: xs := by
        rcases foldl_max_choice xs x with h' | h'
        · rw [h']; exact List.mem_cons_self x xs
        · exact List.mem_cons_of_mem x h'
      rw [← hl] at hmem
      obtain ⟨n, hn, ho⟩ := List.mem_map.mp hmem
      refine ⟨n, (List.mem_filter.mp hn).1,
        by simpa using (List.mem_filter.mp hn).2, ?_⟩
      unfold getNextOrder
      rw [hl]
      dsimp only
      rw [ho]
  · intro h
    unfold getNextOrder
    rw [h]
    rfl
  · intro h
    cases hl : (st.folders.filter (fun f => f.parentId == pid)).map Folder.order with
    | nil =>
      exact absurd (List.map_eq_nil_iff.mp hl) h
    | cons x xs =>
      have hmem : xs.foldl max x ∈ x :: xs := by
        rcases foldl_max_choice xs x with h' | h'
        · rw [h']; exact List.mem_cons_self x xs
        · exact List.mem_cons_of_mem x h'
      rw [← hl] at hmem
      obtain ⟨f, hf, ho⟩ := List.mem_map.mp hmem
      refine ⟨f, (List.mem_filter.mp hf).1,
        by simpa using (List.mem_filter.mp hf).2, ?_⟩
      unfold getNextOrder
      rw [hl]
      dsimp only
      rw [ho]
  · exact ⟨_, rfl, rfl, rfl, rfl, note_order_lt_getNextOrder st pid⟩
  · exact ⟨_, rfl, rfl, rfl, rfl, folder_order_lt_getNextOrder st pid⟩
  · intro m hm
    obtain ⟨m0, hm0, rfl⟩ := List.mem_map.mp hm
    constructor
    · intro hid
      by_cases h : (m0.id == nid) = true
      · exact ⟨m0, hm0, by simpa using h, by rw [if_pos h]⟩
      · rw [if_neg h] at hid ⊢
        exact absurd hid (by simpa using h)
    · intro hid
      by_cases h : (m0.id == nid) = true
      · rw [if_pos h] at hid
        exact absurd (by simpa using h) hid
      · rw [if_neg h]
        exact ⟨hm0, fun hfid => note_order_lt_getNextOrder st (some target) m0 hm0 hfid⟩
  · intro hguard g hg
    unfold moveFolder at hg
    rw [hguard] at hg
    rw [if_neg Bool.false_ne_true] at hg
    dsimp only at hg
    obtain ⟨g0, hg0, rfl⟩ := List.mem_map.mp hg
    constructor
    · intro hid
      unfold moveUpd
      unfold moveUpd at hid
      by_cases h : (g0.id == nid) = true
      · exact ⟨g0, hg0, by simpa using h, by rw [if_pos h]⟩
      · rw [if_neg h] at hid ⊢
        exact absurd hid (by simpa using h)
    · intro hid
      unfold moveUpd
      unfold moveUpd at hid
      by_cases h : (g0.id == nid) = true
      · rw [if_pos h] at hid
        exact absurd (by simpa using h) hid
      · rw [if_neg h]
        exact ⟨hg0, fun hpar => folder_order_lt_getNextOrder st (some target) g0 hg0 hpar⟩
  · intro m hm
    obtain ⟨m0, hm0, rfl⟩ := List.mem_map.mp hm
    constructor
    · intro hid
      by_cases h : (m0.id == nid) = true
      · exact ⟨m0, hm0, by simpa using h, by rw [if_pos h]⟩
      · rw [if_neg h] at hid ⊢
        exact absurd hid (by simpa using h)
    · intro hid
      by_cases h : (m0.id == nid) = true
      · rw [if_pos h] at hid
        exact absurd (by simpa using h) hid
      · rw [if_neg h]
        exact ⟨hm0, fun hfid => note_order_lt_getNextOrder st none m0 hm0 hfid⟩
  · intro g hg
    obtain ⟨g0, hg0, rfl⟩ := List.mem_map.mp hg
    constructor
    · intro hid
      by_cases h : (g0.id == nid) = true
      · exact ⟨g0, hg0, by simpa using h, by rw [if_pos h]⟩
      · rw [if_neg h] at hid ⊢
        exact absurd hid (by simpa using h)
    · intro hid
      by_cases h : (g0.id == nid) = true
      · rw [if_pos h] at hid
        exact absurd (by simpa using h) hid
      · rw [if_neg h]
        exact ⟨hg0, fun hpar => folder_order_lt_getNextOrder st none g0 hg0 hpar⟩

/-- Witness for C8: in the concrete tree, note N's order lies strictly
below the next order for folder B. -/
theorem getNextOrder_spec_witness :
    noteN.order < getNextOrder abState (some "B") ItemKind.note :=
  (getNextOrder_spec abState (some "B") "x" "y" "z").2.2.1 noteN (by decide) rfl

/-- The soft-delete invariant of C5: `previousFolderId` is present only
while the note sits in trash. -/
def PrevInv (notes : List Note) : Prop :=
  ∀ n ∈ notes, n.previousFolderId ≠ none → n.folderId = some TRASH_FOLDER_ID

/-- Side conditions under which the operations preserve `PrevInv`: a
drag-move must not take a note out of trash, and `deleteFolder` is not
applied to the trash sentinel id.  Both hold in the UI: trashed notes are
rendered without `draggable`, and folder ids are UUIDs. -/
def opOk (st : TreeState) : TreeOp → Prop
  | .moveNoteToFolder nid _ =>
    ∀ n ∈ st.notes, n.id = nid → n.folderId ≠ some TRASH_FOLDER_ID
  | .moveNoteToRoot nid =>
    ∀ n ∈ st.notes, n.id = nid → n.folderId ≠ some TRASH_FOLDER_ID
  | .deleteFolder fid => fid ≠ TRASH_FOLDER_ID
  | _ => True

/-- `PrevInv` passes to any sublist obtained by `filter`. -/
lemma prevInv_filter (notes : List Note) (p : Note → Bool) (hinv : PrevInv notes) :
    PrevInv (notes.filter p) := fun n hn => hinv n (List.mem_filter.mp hn).1

/-- `PrevInv` passes through `map` when the update keeps each note
invariant-compliant. -/
lemma prevInv_map (notes : List Note) (u : Note → Note)
    (hinv : PrevInv notes)
    (hu : ∀ m ∈ notes,
        (m.previousFolderId ≠ none → m.folderId = some TRASH_FOLDER_ID) →
        ((u m).previousFolderId ≠ none → (u m).folderId = some TRASH_FOLDER_ID)) :
    PrevInv (notes.map u) := by
  intro n hn
  obtain ⟨m, hm, rfl⟩ := List.mem_map.mp hn
  exact hu m hm (hinv m hm)

/-- C5 (amended): every Tree Store operation preserves the invariant
that `previousFolderId` is set only while `folderId` is the trash
sentinel, under the UI-guaranteed side conditions of `opOk` (a
drag-and-drop move of a note out of trash — unreachable in the UI, since
trashed notes are not draggable — would violate it, see the
counterexample); and `restoreNote` always clears `previousFolderId` on
the restored note. -/
theorem treeOps_preserve_prevInv (st : TreeState) (op : TreeOp)
    (hinv : PrevInv st.notes) (hok : opOk st op) :
    PrevInv (applyOp st op).notes
    ∧ (∀ (id : String), ∀ n ∈ (restoreNote st id).notes, n.id = id →
        n.previousFolderId = none) := by
  constructor
  · cases op with
    | createNote newId folderId =>
      intro n hn
      rcases List.mem_cons.mp hn with rfl | h
      · intro hprev
        exact absurd rfl hprev
      · exact hinv n h
    | updateNoteContent id content =>
      refine prevInv_map _ _ hinv ?_
      intro m _ hImp
      by_cases h : (m.id == id) = true
      · rw [if_pos h]
        exact hImp
      · rw [if_neg h]
        exact hImp
    | deleteNote id =>
      show PrevInv (deleteNote st id).notes
      unfold deleteNote
      cases hf : st.notes.find? (fun n => n.id == id) with
      | none => exact hinv
      | some note =>
        dsimp only
        by_cases hcond : (note.folderId == some TRASH_FOLDER_ID) = true
        · rw [if_pos hcond]
          exact prevInv_filter _ _ hinv
        · rw [if_neg hcond]
          refine prevInv_map _ _ hinv ?_
          intro m _ hImp
          by_cases h : (m.id == id) = true
          · rw [if_pos h]
            intro _
            rfl
          · rw [if_neg h]
            exact hImp
    | createFolder newId parentId => exact hinv
    | updateFolderName id name => exact hinv
    | deleteFolder fid =>
      refine prevInv_map _ _ hinv ?_
      intro m _ hImp
      by_cases h : (m.folderId == some fid) = true
      · rw [if_pos h]
        intro hprev
        have h1 : m.folderId = some fid := by simpa using h
        have h2 := hImp hprev
        rw [h1] at h2
        have : fid = TRASH_FOLDER_ID := by
          injection h2
        exact absurd this hok
      · rw [if_neg h]
        exact hImp
    | toggleFolderCollapse id => exact hinv
    | emptyTrash => exact prevInv_filter _ _ hinv
    | restoreNote id =>
      show PrevInv (restoreNote st id).notes
      unfold restoreNote
      cases hf : st.notes.find? (fun n => n.id == id) with
      | none => exact hinv
      | some note =>
        dsimp only
        refine prevInv_map _ _ hinv ?_
        intro m _ hImp
        by_cases h : (m.id == id) = true
        · rw [if_pos h]
          intro hprev
          exact absurd rfl hprev
        · rw [if_neg h]
          exact hImp
    | moveNoteToFolder nid target =>
      refine prevInv_map _ _ hinv ?_
      intro m hm hImp
      by_cases h : (m.id == nid) = true
      · rw [if_pos h]
        intro hprev
        exact absurd (hImp hprev) (hok m hm (by simpa using h))
      · rw [if_neg h]
        exact hImp
    | moveFolder nid target =>
      show PrevInv (moveFolder st nid target).notes
      unfold moveFolder
      split
      · exact hinv
      · exact hinv
    | moveNoteToRoot nid =>
      refine prevInv_map _ _ hinv ?_
      intro m hm hImp
      by_cases h : (m.id == nid) = true
      · rw [if_pos h]
        intro hprev
        exact absurd (hImp hprev) (hok m hm (by simpa using h))
      · rw [if_neg h]
        exact hImp
    | moveFolderToRoot nid => exact hinv
    | dropNoteOnTrash nid =>
      refine prevInv_map _ _ hinv ?_
      intro m _ hImp
      by_cases h : (m.id == nid) = true
      · rw [if_pos h]
        intro _
        rfl
      · rw [if_neg h]
        exact hImp
  · intro id n hn hid
    unfold restoreNote at hn
    cases hf : st.notes.find? (fun m => m.id == id) with
    | none =>
      rw [hf] at hn
      dsimp only at hn
      have hnone := List.find?_eq_none.mp hf n hn
      exact absurd (show (n.id == id) = true by simpa using hid)
        (by simpa using hnone)
    | some note =>
      rw [hf] at hn
      dsimp only at hn
      obtain ⟨m, hm, rfl⟩ := List.mem_map.mp hn
      by_cases h : (m.id == id) = true
      · rw [if_pos h]
      · rw [if_neg h] at hid ⊢
        exact absurd (show (m.id == id) = true by simpa using hid)
          (by simpa using h)

/-- A state with one trashed note remembering its origin, and one
ordinary folder. -/
def trashedNoteState : TreeState :=
  { notes := [{ id := "n1", title := "", content := "",
                folderId := some TRASH_FOLDER_ID,
                previousFolderId := some (some "f1"), order := 0 }],
    folders := [{ id := "f2", name := "F2", parentId := none,
                  collapsed := false, order := 0 }],
    activeNoteId := none }

/-- C5 counterexample: dragging a trashed note onto a folder (the
`handleDropOnFolder` note branch) leaves `previousFolderId` set while
`folderId` is no longer the trash sentinel, so that operation, taken on
a trashed note, violates the claimed invariant. -/
theorem moveNoteOutOfTrash_breaks_prevInv :
    PrevInv trashedNoteState.notes
    ∧ ¬ PrevInv (applyOp trashedNoteState (.moveNoteToFolder "n1" "f2")).notes := by
  unfold PrevInv
  constructor
  · decide
  · decide

/-- Witness for C5's amended theorem at a concrete state and operation. -/
theorem treeOps_preserve_prevInv_witness :
    PrevInv (applyOp trashedNoteState .emptyTrash).notes
    ∧ (∀ (id : String), ∀ n ∈ (restoreNote trashedNoteState id).notes, n.id = id →
        n.previousFolderId = none) :=
  treeOps_preserve_prevInv trashedNoteState .emptyTrash
    (by unfold PrevInv; decide) trivial

/-- The state for C2's witness. -/
def roundtripState : TreeState :=
  { notes := [{ id := "n1", title := "", content := "", folderId := some "f1",
                previousFolderId := none, order := 0 }],
    folders := [{ id := "f1", name := "F", parentId := none,
                  collapsed := false, order := 0 }],
    activeNoteId := none }

/-- Witness for C2 at a concrete state. -/
theorem deleteNote_restore_roundtrip_witness :
    ∃ n2, (restoreNote (deleteNote roundtripState "n1") "n1").notes.find?
        (fun m => m.id == "n1") = some n2
      ∧ n2.folderId = some "f1" ∧ n2.previousFolderId = none :=
  (deleteNote_restore_roundtrip roundtripState "n1" "f1"
      { id := "n1", title := "", content := "", folderId := some "f1",
        previousFolderId := none, order := 0 }
      (by decide) rfl (by decide)).2.1 (by decide) (by decide)

/- ------------------------------------------------------------------ -/
/-! ## Folder-move acyclicity (C1) -/

/-- One step up the parent graph: from a folder id to the found folder's
`parentId` (`none` when the id is absent, ending the walk exactly as the
source's `while (current)` loop does). -/
def parentStep (folders : List Folder) : Option String → Option String
  | none => none
  | some x =>
    match folders.find? (fun f => f.id == x) with
    | none => none
    | some f => f.parentId

/-- Iterated `parentStep`. -/
def parentIter (folders : List Folder) : Nat → Option String → Option String
  | 0, s => s
  | k + 1, s => parentIter folders k (parentStep folders s)

/-- Acyclicity of the parent graph: no id is its own strict ancestor. -/
def AcyclicP (folders : List Folder) : Prop :=
  ∀ (x : String) (k : Nat), 0 < k → parentIter folders k (some x) ≠ some x

/-- Executable acyclicity: from every folder, the parent walk reaches the
root (or a dangling reference) within `folders.length + 1` steps.  This
is equivalent to `AcyclicP` (both directions proved below). -/
def acyclicB (folders : List Folder) : Bool :=
  folders.all (fun f => (parentIter folders (folders.length + 1) (some f.id)).isNone)

lemma parentIter_none (folders : List Folder) : ∀ k, parentIter folders k none = none
  | 0 => rfl
  | k + 1 => parentIter_none folders k

lemma parentStep_eq_none (folders : List Folder) (x : String)
    (hf : folders.find? (fun f => f.id == x) = none) :
    parentStep folders (some x) = none := by
  unfold parentStep
  dsimp only
  rw [hf]

lemma parentStep_eq_parent (folders : List Folder) (x : String) (c : Folder)
    (hf : folders.find? (fun f => f.id == x) = some c) :
    parentStep folders (some x) = c.parentId := by
  unfold parentStep
  dsimp only
  rw [hf]

lemma findByOptId_some (folders : List Folder) (x : String) :
    findByOptId folders (some x) = folders.find? (fun f => f.id == x) := by
  unfold findByOptId
  dsimp only

lemma parentIter_add (folders : List Folder) (a : Nat) :
    ∀ (b : Nat) (s : Option String),
      parentIter folders (a + b) s = parentIter folders a (parentIter folders b s)
  | 0, _ => rfl
  | b + 1, s => by
    show parentIter folders (a + b) (parentStep folders s)
        = parentIter folders a (parentIter folders b (parentStep folders s))
    exact parentIter_add folders a b (parentStep folders s)

/-- Peeling a step off the end instead of the front. -/
lemma parentIter_succ_out (folders : List Folder) (k : Nat) (s : Option String) :
    parentIter folders (k + 1) s = parentStep folders (parentIter folders k s) := by
  rw [Nat.add_comm, parentIter_add folders 1 k s]
  rfl

lemma parentIter_none_of_le (folders : List Folder) (k m : Nat) (s : Option String)
    (h : parentIter folders k s = none) :
    parentIter folders (k + m) s = none := by
  rw [Nat.add_comm, parentIter_add folders m k s, h, parentIter_none]

lemma parentIter_cycle_pump (folders : List Folder) (x : String) (k : Nat)
    (hk : parentIter folders k (some x) = some x) :
    ∀ m, parentIter folders (m * k) (some x) = some x
  | 0 => by rw [Nat.zero_mul]; rfl
  | m + 1 => by
    have h : (m + 1) * k = m * k + k := by ring
    rw [h, parentIter_add folders (m * k) k (some x), hk,
        parentIter_cycle_pump folders x k hk m]

lemma termAll_of_acyclicB (folders : List Folder) (hB : acyclicB folders = true) :
    ∀ x : String, parentIter folders (folders.length + 1) (some x) = none := by
  intro x
  cases hf : folders.find? (fun f => f.id == x) with
  | none =>
    show parentIter folders folders.length (parentStep folders (some x)) = none
    rw [parentStep_eq_none folders x hf, parentIter_none]
  | some c =>
    have hcx : c.id = x := by simpa using List.find?_some hf
    have hc := List.mem_of_find?_eq_some hf
    have hall := List.all_eq_true.mp hB c hc
    rw [hcx] at hall
    simpa [Option.isNone_iff_eq_none] using hall

lemma acyclicP_of_acyclicB (folders : List Folder) (hB : acyclicB folders = true) :
    AcyclicP folders := by
  intro x k hk hcontra
  have hterm := termAll_of_acyclicB folders hB x
  have hpump := parentIter_cycle_pump folders x k hcontra (folders.length + 1)
  have hge : folders.length + 1 ≤ (folders.length + 1) * k := by
    calc folders.length + 1 = (folders.length + 1) * 1 := by ring
      _ ≤ (folders.length + 1) * k := Nat.mul_le_mul_left _ hk
  have hnone : parentIter folders ((folders.length + 1) * k) (some x) = none := by
    have h2 : (folders.length + 1) + ((folders.length + 1) * k - (folders.length + 1))
        = (folders.length + 1) * k := Nat.add_sub_cancel' hge
    rw [← h2]
    exact parentIter_none_of_le folders _ _ _ hterm
  rw [hnone] at hpump
  cases hpump

/-- No terminating walk revisits a value (a repeat would be a cycle). -/
lemma parentIter_no_repeat (folders : List Folder) (hA : AcyclicP folders)
    (s : String) (a b : Nat) (hab : a < b)
    (hsome : parentIter folders a (some s) ≠ none)
    (heq : parentIter folders a (some s) = parentIter folders b (some s)) : False := by
  cases hy : parentIter folders a (some s) with
  | none => exact hsome hy
  | some y =>
    have hcyc : parentIter folders (b - a) (some y) = some y := by
      have h1 : (b - a) + a = b := Nat.sub_add_cancel (le_of_lt hab)
      have h2 : parentIter folders ((b - a) + a) (some s)
          = parentIter folders (b - a) (parentIter folders a (some s)) :=
        parentIter_add folders (b - a) a (some s)
      rw [h1, hy] at h2
      rw [← h2, ← heq, hy]
    exact hA y (b - a) (by omega) hcyc

/-- Pigeonhole: a walk that is still alive after `j + 1` steps has visited
`j + 1` distinct found folder ids, so `j + 1` is at most the number of
folders. -/
lemma chain_length_le (folders : List Folder) (hA : AcyclicP folders)
    (s : String) (j : Nat)
    (h : parentIter folders (j + 1) (some s) ≠ none) :
    j + 1 ≤ folders.length := by
  have hsome : ∀ k, k ≤ j + 1 → parentIter folders k (some s) ≠ none := by
    intro k hkle hkn
    apply h
    have hsplit : k + ((j + 1) - k) = j + 1 := Nat.add_sub_cancel' hkle
    rw [← hsplit]
    exact parentIter_none_of_le folders _ _ _ hkn
  have hfound : ∀ k, k ≤ j → ∃ y, parentIter folders k (some s) = some y ∧
      (folders.find? (fun f => f.id == y)).isSome = true := by
    intro k hk
    cases hy : parentIter folders k (some s) with
    | none => exact absurd hy (hsome k (Nat.le_succ_of_le hk))
    | some y =>
      refine ⟨y, rfl, ?_⟩
      cases hfind : folders.find? (fun f => f.id == y) with
      | some c => rfl
      | none =>
        exfalso
        have hnone : parentIter folders (k + 1) (some s) = none := by
          rw [parentIter_succ_out, hy, parentStep_eq_none folders y hfind]
        exact hsome (k + 1) (Nat.succ_le_succ hk) hnone
  have hnodup : ((List.range (j + 1)).map
      (fun k => parentIter folders k (some s))).Nodup := by
    refine List.Nodup.map_on ?_ (List.nodup_range (j + 1))
    intro a ha b hb heq
    by_contra hne
    have ha' : a ≤ j := Nat.lt_succ_iff.mp (List.mem_range.mp ha)
    have hb' : b ≤ j := Nat.lt_succ_iff.mp (List.mem_range.mp hb)
    rcases Nat.lt_or_ge a b with hab | hab
    · exact parentIter_no_repeat folders hA s a b hab
        (hsome a (Nat.le_succ_of_le ha')) heq
    · have hba : b < a := Nat.lt_of_le_of_ne hab (fun h' => hne h'.symm)
      exact parentIter_no_repeat folders hA s b a hba
        (hsome b (Nat.le_succ_of_le hb')) heq.symm
  have hsubset : ∀ t ∈ (List.range (j + 1)).map
      (fun k => parentIter folders k (some s)),
      t ∈ folders.map (fun f => (some f.id : Option String)) := by
    intro t ht
    obtain ⟨k, hk, rfl⟩ := List.mem_map.mp ht
    have hk' : k ≤ j := Nat.lt_succ_iff.mp (List.mem_range.mp hk)
    obtain ⟨y, hy, hfy⟩ := hfound k hk'
    rw [hy]
    obtain ⟨c, hc⟩ := Option.isSome_iff_exists.mp hfy
    have hcy : c.id = y := by simpa using List.find?_some hc
    exact List.mem_map.mpr ⟨c, List.mem_of_find?_eq_some hc, by rw [hcy]⟩
  have hsub := (hnodup.subperm hsubset).length_le
  simpa using hsub

/-- Soundness of the fuelled descendant walk: a `false` answer means the
target id does not appear as a parent within the first `fuel` ancestor
steps. -/
lemma isDescendantGo_false_sound (folders : List Folder) (pid : String) :
    ∀ (fuel : Nat) (s : Option String),
      isDescendantGo folders pid fuel (findByOptId folders s) = false →
      ∀ j, j < fuel → parentIter folders (j + 1) s ≠ some pid := by
  intro fuel
  induction fuel with
  | zero =>
    intro s _ j hj
    omega
  | succ fuel ih =>
    intro s hgo j hj
    cases s with
    | none =>
      show parentIter folders j (parentStep folders none) ≠ some pid
      rw [show parentStep folders none = none from rfl, parentIter_none]
      simp
    | some x =>
      cases hf : folders.find? (fun f => f.id == x) with
      | none =>
        show parentIter folders j (parentStep folders (some x)) ≠ some pid
        rw [parentStep_eq_none folders x hf, parentIter_none]
        simp
      | some c =>
        rw [findByOptId_some, hf] at hgo
        unfold isDescendantGo at hgo
        by_cases hcp : (c.parentId == some pid) = true
        · rw [if_pos hcp] at hgo
          cases hgo
        · rw [if_neg hcp] at hgo
          have hstep : parentStep folders (some x) = c.parentId :=
            parentStep_eq_parent folders x c hf
          cases j with
          | zero =>
            show parentIter folders 0 (parentStep folders (some x)) ≠ some pid
            rw [hstep]
            simpa using hcp
          | succ j' =>
            show parentIter folders (j' + 1) (parentStep folders (some x)) ≠ some pid
            rw [hstep]
            exact ih c.parentId hgo j' (by omega)

/-- Completeness: when the state is acyclic and the moved folder really is
an ancestor of the target, the source's walk reports it. -/
lemma isDescendant_complete (folders : List Folder) (hA : AcyclicP folders)
    (pid t : String) (j : Nat)
    (hreach : parentIter folders (j + 1) (some t) = some pid) :
    isDescendant folders pid t = true := by
  by_contra hfalse
  have hfalse' : isDescendant folders pid t = false := by
    cases h : isDescendant folders pid t
    · rfl
    · exact absurd h hfalse
  have hbound : j + 1 ≤ folders.length :=
    chain_length_le folders hA t j (by rw [hreach]; simp)
  exact isDescendantGo_false_sound folders pid folders.length (some t)
    hfalse' j (by omega) hreach

lemma moveUpd_id (id target : String) (nOrd : Int) (f : Folder) :
    (moveUpd id target nOrd f).id = f.id := by
  unfold moveUpd
  split <;> rfl

lemma find?_moved (folders : List Folder) (id target : String) (nOrd : Int) (x : String) :
    (folders.map (moveUpd id target nOrd)).find? (fun f => f.id == x)
      = (folders.find? (fun f => f.id == x)).map (moveUpd id target nOrd) :=
  find?_map_of_pres _ _ (fun f => by rw [moveUpd_id]) folders

/-- In the moved state the parent step is unchanged at every id other
than the moved one. -/
lemma parentStep_moved_ne (folders : List Folder) (id target : String) (nOrd : Int)
    (x : String) (hx : x ≠ id) :
    parentStep (folders.map (moveUpd id target nOrd)) (some x)
      = parentStep folders (some x) := by
  cases hf : folders.find? (fun f => f.id == x) with
  | none =>
    rw [parentStep_eq_none folders x hf]
    apply parentStep_eq_none
    rw [find?_moved, hf]
    rfl
  | some c =>
    rw [parentStep_eq_parent folders x c hf]
    have hfm : (folders.map (moveUpd id target nOrd)).find? (fun f => f.id == x)
        = some (moveUpd id target nOrd c) := by
      rw [find?_moved, hf]
      rfl
    rw [parentStep_eq_parent _ x _ hfm]
    have hcx : c.id = x := by simpa using List.find?_some hf
    unfold moveUpd
    rw [if_neg (by rw [hcx]; simpa using hx)]

/-- In the moved state the moved folder's parent is the drop target. -/
lemma parentStep_moved_id_found (folders : List Folder) (id target : String) (nOrd : Int)
    (c : Folder) (hf : folders.find? (fun f => f.id == id) = some c) :
    parentStep (folders.map (moveUpd id target nOrd)) (some id) = some target := by
  have hfm : (folders.map (moveUpd id target nOrd)).find? (fun f => f.id == id)
      = some (moveUpd id target nOrd c) := by
    rw [find?_moved, hf]
    rfl
  rw [parentStep_eq_parent _ id _ hfm]
  have hcx : (c.id == id) = true := by
    have h := List.find?_some hf
    simpa using h
  unfold moveUpd
  rw [if_pos hcx]

lemma parentStep_moved_id_notfound (folders : List Folder) (id target : String)
    (nOrd : Int) (hf : folders.find? (fun f => f.id == id) = none) :
    parentStep (folders.map (moveUpd id target nOrd)) (some id) = none := by
  apply parentStep_eq_none
  rw [find?_moved, hf]
  rfl

/-- A walk in the moved state that never visits the moved id coincides
with the walk in the original state. -/
lemma parentIter_moved_eq (folders : List Folder) (id target : String) (nOrd : Int) :
    ∀ (k : Nat) (s : Option String),
      (∀ j, j < k → parentIter (folders.map (moveUpd id target nOrd)) j s ≠ some id) →
      parentIter (folders.map (moveUpd id target nOrd)) k s = parentIter folders k s := by
  intro k
  induction k with
  | zero => intro s _; rfl
  | succ k ih =>
    intro s hs
    have hs0 : s ≠ some id := by
      have h0 := hs 0 (Nat.succ_pos k)
      simpa using h0
    have hstep : parentStep (folders.map (moveUpd id target nOrd)) s
        = parentStep folders s := by
      cases s with
      | none => rfl
      | some x =>
        refine parentStep_moved_ne folders id target nOrd x ?_
        intro h
        exact hs0 (by rw [h])
    show parentIter (folders.map (moveUpd id target nOrd)) k
        (parentStep (folders.map (moveUpd id target nOrd)) s)
      = parentIter folders k (parentStep folders s)
    rw [hstep]
    refine ih (parentStep folders s) ?_
    intro j hj
    have hj1 := hs (j + 1) (by omega)
    rw [show parentIter (folders.map (moveUpd id target nOrd)) (j + 1) s
        = parentIter (folders.map (moveUpd id target nOrd)) j
            (parentStep (folders.map (moveUpd id target nOrd)) s) from rfl,
      hstep] at hj1
    exact hj1

/-- A single guarded folder move preserves acyclicity. -/
lemma moveFolder_preserves_acyclicP (st : TreeState) (id target : String)
    (hA : AcyclicP st.folders) : AcyclicP (moveFolder st id target).folders := by
  unfold moveFolder
  by_cases hguard : (id == target || isDescendant st.folders id target) = true
  · rw [if_pos hguard]
    exact hA
  · rw [if_neg hguard]
    have hne : id ≠ target := by
      intro h
      apply hguard
      rw [h]
      simp
    have hdesc : isDescendant st.folders id target = false := by
      cases h : isDescendant st.folders id target
      · rfl
      · exact absurd (by rw [h]; simp) hguard
    show AcyclicP (st.folders.map
      (moveUpd id target (getNextOrder st (some target) ItemKind.folder)))
    intro x k hk hcyc
    by_cases hB : ∃ j, j < k ∧ parentIter (st.folders.map
        (moveUpd id target (getNextOrder st (some target) ItemKind.folder))) j
        (some x) = some id
    · obtain ⟨j, hjk, hj⟩ := hB
      have hcid : parentIter (st.folders.map
          (moveUpd id target (getNextOrder st (some target) ItemKind.folder))) k
          (some id) = some id := by
        have h1 := parentIter_add (st.folders.map
          (moveUpd id target (getNextOrder st (some target) ItemKind.folder))) k j (some x)
        have h2 := parentIter_add (st.folders.map
          (moveUpd id target (getNextOrder st (some target) ItemKind.folder))) j k (some x)
        rw [hj] at h1
        rw [hcyc] at h2
        rw [← h1, Nat.add_comm, h2, hj]
      cases hfind : st.folders.find? (fun f => f.id == id) with
      | none =>
        obtain ⟨k', rfl⟩ : ∃ k', k = k' + 1 := ⟨k - 1, by omega⟩
        rw [show parentIter (st.folders.map
            (moveUpd id target (getNextOrder st (some target) ItemKind.folder))) (k' + 1)
            (some id)
          = parentIter (st.folders.map
            (moveUpd id target (getNextOrder st (some target) ItemKind.folder))) k'
            (parentStep (st.folders.map
              (moveUpd id target (getNextOrder st (some target) ItemKind.folder)))
              (some id)) from rfl,
          parentStep_moved_id_notfound st.folders id target _ hfind,
          parentIter_none] at hcid
        cases hcid
      | some c =>
        obtain ⟨k', rfl⟩ : ∃ k', k = k' + 1 := ⟨k - 1, by omega⟩
        rw [show parentIter (st.folders.map
            (moveUpd id target (getNextOrder st (some target) ItemKind.folder))) (k' + 1)
            (some id)
          = parentIter (st.folders.map
            (moveUpd id target (getNextOrder st (some target) ItemKind.folder))) k'
            (parentStep (st.folders.map
              (moveUpd id target (getNextOrder st (some target) ItemKind.folder)))
              (some id)) from rfl,
          parentStep_moved_id_found st.folders id target _ c hfind] at hcid
        have hex : ∃ m, parentIter (st.folders.map
            (moveUpd id target (getNextOrder st (some target) ItemKind.folder))) m
            (some target) = some id := ⟨k', hcid⟩
        have hmin := Nat.find_spec hex
        have htransfer := parentIter_moved_eq st.folders id target
          (getNextOrder st (some target) ItemKind.folder) (Nat.find hex) (some target)
          (fun j hj => Nat.find_min hex hj)
        have hreach : parentIter st.folders (Nat.find hex) (some target) = some id := by
          rw [← htransfer]
          exact hmin
        cases hfz : Nat.find hex with
        | zero =>
          rw [hfz] at hreach
          have hsome : (some target : Option String) = some id := hreach
          exact hne (Option.some.inj hsome).symm
        | succ j0 =>
          rw [hfz] at hreach
          have hcompl := isDescendant_complete st.folders hA id target j0 hreach
          rw [hcompl] at hdesc
          cases hdesc
    · have hAll : ∀ j, j < k → parentIter (st.folders.map
          (moveUpd id target (getNextOrder st (some target) ItemKind.folder))) j
          (some x) ≠ some id :=
        fun j hj h => hB ⟨j, hj, h⟩
      rw [parentIter_moved_eq st.folders id target _ k (some x) hAll] at hcyc
      exact hA x k hk hcyc

/-- Apply a sequence of folder drag-moves. -/
def applyMoves (st : TreeState) (moves : List (String × String)) : TreeState :=
  moves.foldl (fun s m => moveFolder s m.1 m.2) st

lemma applyMoves_acyclicP (moves : List (String × String)) :
    ∀ st : TreeState, AcyclicP st.folders → AcyclicP (applyMoves st moves).folders := by
  induction moves with
  | nil => intro st h; exact h
  | cons m ms ih =>
    intro st h
    exact ih (moveFolder st m.1 m.2) (moveFolder_preserves_acyclicP st m.1 m.2 h)

lemma acyclicB_of_acyclicP (folders : List Folder) (hA : AcyclicP folders) :
    acyclicB folders = true := by
  rw [acyclicB, List.all_eq_true]
  intro f hf
  cases hit : parentIter folders (folders.length + 1) (some f.id) with
  | none => simp [hit]
  | some y =>
    exfalso
    have hle : folders.length + 1 ≤ folders.length :=
      chain_length_le folders hA f.id folders.length (by rw [hit]; simp)
    omega

/-- C1: starting from an acyclic folder forest, any sequence of
drag-and-drop folder moves keeps the parent graph acyclic; and whenever
the requested target is the moved folder itself or one of its descendants
(an ancestor walk from the target reaches the moved id), the move is a
no-op leaving the whole state — in particular every `parentId` —
unchanged. -/
theorem moveFolder_sequence_acyclic (st : TreeState)
    (hA : acyclicB st.folders = true) (moves : List (String × String)) :
    acyclicB (applyMoves st moves).folders = true
    ∧ (∀ id target : String,
        (target = id ∨ ∃ j : Nat, 0 < j ∧
            parentIter st.folders j (some target) = some id) →
        moveFolder st id target = st) := by
  have hP : AcyclicP st.folders := acyclicP_of_acyclicB st.folders hA
  constructor
  · exact acyclicB_of_acyclicP _ (applyMoves_acyclicP moves st hP)
  · intro id target h
    unfold moveFolder
    rcases h with rfl | ⟨j, hj, hreach⟩
    · rw [if_pos (by simp)]
    · obtain ⟨j', rfl⟩ : ∃ j', j = j' + 1 := ⟨j - 1, by omega⟩
      have hdesc := isDescendant_complete st.folders hP id target j' hreach
      rw [if_pos (by rw [hdesc]; simp)]

/-- A two-folder acyclic state for C1's witness. -/
def c1State : TreeState :=
  { notes := [], folders := [folderA, folderB], activeNoteId := none }

/-- Witness for C1: after attempting to drop A onto its own child B, the
state is still acyclic. -/
theorem moveFolder_sequence_acyclic_witness :
    acyclicB (applyMoves c1State [("A", "B")]).folders = true :=
  (moveFolder_sequence_acyclic c1State (by decide) [("A", "B")]).1

end Readly
